import Mathlib

/-!
Verification development for the `sp-session` crate
(`src/primitives/session/src/lib.rs`): session key codec, membership
proofs and their accessor traits, the session handler protocol, and
`generate_initial_session_keys`.

Bytes are modelled as `Nat` with validity `< 256`; `u32` values as `Nat`
with validity `< 2^32`; `Vec<u8>` as `List Nat`.
-/

namespace SpSession

/-- A raw byte sequence (`Vec<u8>`). Validity: each element `< 256`. -/
abbrev Bytes := List Nat

/-- All elements of a byte sequence are real bytes. -/
def BytesOk (B : Bytes) : Prop := ∀ b ∈ B, b < 256

/-- Fixed-width little-endian encoding of a `u32` (used for `KeyTypeId`,
`SessionIndex` and `ValidatorCount`, which SCALE encodes as 4 raw bytes). -/
def encodeU32 (n : Nat) : Bytes :=
  [n % 256, n / 256 % 256, n / 65536 % 256, n / 16777216 % 256]

/-- Read a little-endian `u32` from the head of a byte stream, returning the
value and the remaining stream, or `none` if fewer than 4 bytes remain. -/
def decodeU32 : Bytes → Option (Nat × Bytes)
  | b0 :: b1 :: b2 :: b3 :: rest =>
      some (b0 + 256 * b1 + 65536 * b2 + 16777216 * b3, rest)
  | _ => none

/-- SCALE compact encoding of a length (single-byte, two-byte and four-byte
modes; callers keep lengths below `2^30` so the big-integer mode is unused). -/
def encodeCompact (n : Nat) : Bytes :=
  if n < 64 then [4 * n]
  else if n < 16384 then [(4 * n + 1) % 256, (4 * n + 1) / 256]
  else [(4 * n + 2) % 256, (4 * n + 2) / 256 % 256,
        (4 * n + 2) / 65536 % 256, (4 * n + 2) / 16777216 % 256]

/-- SCALE compact decoding: inspects the two mode bits of the first byte,
rejects non-minimal encodings and the (unused) big-integer mode. -/
def decodeCompact : Bytes → Option (Nat × Bytes)
  | [] => none
  | b0 :: rest =>
      if b0 % 4 = 0 then some (b0 / 4, rest)
      else if b0 % 4 = 1 then
        match rest with
        | b1 :: rest1 =>
            let v := (b0 + 256 * b1) / 4
            if 64 ≤ v then some (v, rest1) else none
        | [] => none
      else if b0 % 4 = 2 then
        match rest with
        | b1 :: b2 :: b3 :: rest1 =>
            let v := (b0 + 256 * b1 + 65536 * b2 + 16777216 * b3) / 4
            if 16384 ≤ v then some (v, rest1) else none
        | _ => none
      else none

lemma encodeU32_bytesOk (n : Nat) : BytesOk (encodeU32 n) := by
  intro b hb
  simp [encodeU32] at hb
  rcases hb with h | h | h | h <;> omega

lemma decodeU32_encodeU32 (n : Nat) (h : n < 4294967296) (rest : Bytes) :
    decodeU32 (encodeU32 n ++ rest) = some (n, rest) := by
  simp [encodeU32, decodeU32]
  omega

lemma decodeU32_sound {B : Bytes} {v : Nat} {rest : Bytes}
    (hB : BytesOk B) (h : decodeU32 B = some (v, rest)) :
    encodeU32 v ++ rest = B ∧ v < 4294967296 := by
  match B with
  | [] => simp [decodeU32] at h
  | [b0] => simp [decodeU32] at h
  | [b0, b1] => simp [decodeU32] at h
  | [b0, b1, b2] => simp [decodeU32] at h
  | b0 :: b1 :: b2 :: b3 :: r =>
      simp [decodeU32] at h
      have h0 : b0 < 256 := hB b0 (by simp)
      have h1 : b1 < 256 := hB b1 (by simp)
      have h2 : b2 < 256 := hB b2 (by simp)
      have h3 : b3 < 256 := hB b3 (by simp)
      obtain ⟨hv, hr⟩ := h
      subst hr
      constructor
      · simp [encodeU32]
        omega
      · omega

lemma encodeCompact_bytesOk (n : Nat) : BytesOk (encodeCompact n) := by
  intro b hb
  by_cases h1 : n < 64
  · simp [encodeCompact, h1] at hb; omega
  · by_cases h2 : n < 16384
    · simp [encodeCompact, h1, h2] at hb
      rcases hb with h | h <;> omega
    · simp [encodeCompact, h1, h2] at hb
      rcases hb with h | h | h | h <;> omega

lemma decodeCompact_encodeCompact (n : Nat) (h : n < 1073741824) (rest : Bytes) :
    decodeCompact (encodeCompact n ++ rest) = some (n, rest) := by
  by_cases h1 : n < 64
  · simp [encodeCompact, h1, decodeCompact]
  · by_cases h2 : n < 16384
    · simp [encodeCompact, h1, h2, decodeCompact]
      have hm : (4 * n + 1) % 256 % 4 = 1 := by omega
      simp [hm]
      omega
    · simp [encodeCompact, h1, h2, decodeCompact]
      have hm0 : ¬ (4 * n + 2) % 256 % 4 = 0 := by omega
      have hm1 : ¬ (4 * n + 2) % 256 % 4 = 1 := by omega
      have hm2 : (4 * n + 2) % 256 % 4 = 2 := by omega
      simp [hm0, hm1, hm2]
      omega

lemma decodeCompact_sound {B : Bytes} {v : Nat} {rest : Bytes}
    (hB : BytesOk B) (h : decodeCompact B = some (v, rest)) :
    encodeCompact v ++ rest = B ∧ v < 1073741824 := by
  match B with
  | [] => simp [decodeCompact] at h
  | b0 :: r =>
      have h0 : b0 < 256 := hB b0 (by simp)
      by_cases hc0 : b0 % 4 = 0
      · simp [decodeCompact, hc0] at h
        obtain ⟨hv, hr⟩ := h
        subst hr
        have hlt : v < 64 := by omega
        refine ⟨?_, by omega⟩
        simp [encodeCompact, hlt]
        omega
      · by_cases hc1 : b0 % 4 = 1
        · match r with
          | [] => simp [decodeCompact, hc0, hc1] at h
          | b1 :: r1 =>
              have hb1 : b1 < 256 := hB b1 (by simp)
              simp [decodeCompact, hc0, hc1] at h
              obtain ⟨hge, hv, hr⟩ := h
              subst hr
              have hn1 : ¬ v < 64 := by omega
              have hn2 : v < 16384 := by omega
              refine ⟨?_, by omega⟩
              simp [encodeCompact, hn1, hn2]
              omega
        · by_cases hc2 : b0 % 4 = 2
          · match r with
            | [] => simp [decodeCompact, hc0, hc1, hc2] at h
            | [b1] => simp [decodeCompact, hc0, hc1, hc2] at h
            | [b1, b2] => simp [decodeCompact, hc0, hc1, hc2] at h
            | b1 :: b2 :: b3 :: r1 =>
                have hb1 : b1 < 256 := hB b1 (by simp)
                have hb2 : b2 < 256 := hB b2 (by simp)
                have hb3 : b3 < 256 := hB b3 (by simp)
                simp [decodeCompact, hc0, hc1, hc2] at h
                obtain ⟨hge, hv, hr⟩ := h
                subst hr
                have hn1 : ¬ v < 64 := by omega
                have hn2 : ¬ v < 16384 := by omega
                refine ⟨?_, by omega⟩
                simp [encodeCompact, hn1, hn2]
                omega
          · simp [decodeCompact, hc0, hc1, hc2] at h

/-- One session key record: `(raw public key bytes, KeyTypeId)`.
`KeyTypeId` (a 4-byte tag) is modelled as a `Nat < 2^32`. -/
abbrev KeyRecord := Bytes × Nat

/-- A key record is well formed: its raw bytes are bytes, its length is below
the compact-encoding range used here, and its `KeyTypeId` fits in 4 bytes. -/
def ValidKey (k : KeyRecord) : Prop :=
  BytesOk k.1 ∧ k.1.length < 1073741824 ∧ k.2 < 4294967296

/-- A session key bundle is valid when each of its records is. -/
def ValidBundle (K : List KeyRecord) : Prop := ∀ k ∈ K, ValidKey k

/-- Modelled from the spec: the deterministic encoding of one key record —
"each record is self-describing (type tag + length-delimited payload per the
standard deterministic encoding scheme)" (§4.1). -/
def encodeKey (k : KeyRecord) : Bytes :=
  encodeU32 k.2 ++ encodeCompact k.1.length ++ k.1

/-- Modelled from the spec: read one self-describing key record from the head
of a blob; `none` on truncation or malformed data. -/
def decodeKey (B : Bytes) : Option (KeyRecord × Bytes) :=
  match decodeU32 B with
  | none => none
  | some (kid, r1) =>
      match decodeCompact r1 with
      | none => none
      | some (n, r2) =>
          if n ≤ r2.length then some ((r2.take n, kid), r2.drop n) else none

lemma decodeU32_length {B : Bytes} {v : Nat} {rest : Bytes}
    (h : decodeU32 B = some (v, rest)) : rest.length + 4 = B.length := by
  match B with
  | [] => simp [decodeU32] at h
  | [b0] => simp [decodeU32] at h
  | [b0, b1] => simp [decodeU32] at h
  | [b0, b1, b2] => simp [decodeU32] at h
  | b0 :: b1 :: b2 :: b3 :: r =>
      simp [decodeU32] at h
      obtain ⟨-, hr⟩ := h
      subst hr
      simp

lemma decodeCompact_length {B : Bytes} {v : Nat} {rest : Bytes}
    (h : decodeCompact B = some (v, rest)) : rest.length < B.length := by
  match B with
  | [] => simp [decodeCompact] at h
  | b0 :: r =>
      by_cases hc0 : b0 % 4 = 0
      · simp [decodeCompact, hc0] at h
        obtain ⟨-, hr⟩ := h
        subst hr
        simp
      · by_cases hc1 : b0 % 4 = 1
        · match r with
          | [] => simp [decodeCompact, hc0, hc1] at h
          | b1 :: r1 =>
              simp [decodeCompact, hc0, hc1] at h
              obtain ⟨-, -, hr⟩ := h
              subst hr
              simp
              omega
        · by_cases hc2 : b0 % 4 = 2
          · match r with
            | [] => simp [decodeCompact, hc0, hc1, hc2] at h
            | [b1] => simp [decodeCompact, hc0, hc1, hc2] at h
            | [b1, b2] => simp [decodeCompact, hc0, hc1, hc2] at h
            | b1 :: b2 :: b3 :: r1 =>
                simp [decodeCompact, hc0, hc1, hc2] at h
                obtain ⟨-, -, hr⟩ := h
                subst hr
                simp
                omega
          · simp [decodeCompact, hc0, hc1, hc2] at h

lemma decodeKey_length {B : Bytes} {k : KeyRecord} {rest : Bytes}
    (h : decodeKey B = some (k, rest)) : rest.length < B.length := by
  unfold decodeKey at h
  match hu : decodeU32 B with
  | none => simp [hu] at h
  | some (kid, r1) =>
      simp [hu] at h
      match hc : decodeCompact r1 with
      | none => simp [hc] at h
      | some (n, r2) =>
          simp [hc] at h
          obtain ⟨-, -, hr⟩ := h
          subst hr
          have h1 := decodeU32_length hu
          have h2 := decodeCompact_length hc
          simp
          omega

lemma decodeKey_encodeKey (k : KeyRecord) (hk : ValidKey k) (rest : Bytes) :
    decodeKey (encodeKey k ++ rest) = some (k, rest) := by
  obtain ⟨-, hlen, hkid⟩ := hk
  unfold encodeKey decodeKey
  rw [List.append_assoc, List.append_assoc]
  simp only [decodeU32_encodeU32 k.2 hkid, decodeCompact_encodeCompact k.1.length hlen]
  have hle : k.1.length ≤ (k.1 ++ rest).length := by simp
  rw [if_pos hle]
  simp

lemma decodeKey_sound {B : Bytes} {k : KeyRecord} {rest : Bytes}
    (hB : BytesOk B) (h : decodeKey B = some (k, rest)) :
    encodeKey k ++ rest = B ∧ ValidKey k := by
  unfold decodeKey at h
  match hu : decodeU32 B with
  | none => simp [hu] at h
  | some (kid, r1) =>
      simp [hu] at h
      match hc : decodeCompact r1 with
      | none => simp [hc] at h
      | some (n, r2) =>
          simp [hc] at h
          obtain ⟨hle, hk, hr⟩ := h
          subst hr
          obtain ⟨hu1, hu2⟩ := decodeU32_sound hB hu
          have hr1 : BytesOk r1 := by
            intro b hb
            exact hB b (by rw [← hu1]; simp [hb])
          obtain ⟨hc1, hc2⟩ := decodeCompact_sound hr1 hc
          have hr2 : BytesOk r2 := by
            intro b hb
            exact hr1 b (by rw [← hc1]; simp [hb])
          have htk : (r2.take n).length = n := by
            simp [hle]
          constructor
          · subst hk
            unfold encodeKey
            simp only [htk]
            rw [List.append_assoc, List.take_append_drop, List.append_assoc, hc1, hu1]
          · subst hk
            refine ⟨?_, ?_, hu2⟩
            · intro b hb
              exact hr2 b (List.mem_of_mem_take hb)
            · rw [htk]; exact hc2

/-- Modelled from the spec: `generate_session_keys` "Returns the concatenated
SCALE encoded public keys" — the blob returned for a generated bundle `K` is
the concatenation of the deterministic encodings of its records. The key
generation itself (keystore interaction, randomness) is external. -/
def generate_session_keys_blob (K : List KeyRecord) : Bytes :=
  (K.map encodeKey).flatten

/-- Modelled from the spec: `decode_session_keys` — "Decode the given public
session keys. Returns the list of public raw public keys + key type", `none`
if the blob is malformed, truncated, or contains an unrecognized encoding. -/
def decode_session_keys (B : Bytes) : Option (List KeyRecord) :=
  if B = [] then some []
  else
    match h : decodeKey B with
    | none => none
    | some (k, rest) => (decode_session_keys rest).map (k :: ·)
termination_by B.length
decreasing_by exact decodeKey_length h

lemma encodeKey_ne_nil (k : KeyRecord) : encodeKey k ≠ [] := by
  simp [encodeKey, encodeU32]

lemma decode_encode_bundle (K : List KeyRecord) (hK : ValidBundle K) :
    decode_session_keys (generate_session_keys_blob K) = some K := by
  induction K with
  | nil => simp [generate_session_keys_blob, decode_session_keys]
  | cons k ks ih =>
      have hk : ValidKey k := hK k (by simp)
      have hks : ValidBundle ks := by
        intro x hx
        exact hK x (by simp [hx])
      have hblob : generate_session_keys_blob (k :: ks) =
          encodeKey k ++ generate_session_keys_blob ks := by
        simp [generate_session_keys_blob]
      rw [decode_session_keys, hblob]
      have hne : ¬ (encodeKey k ++ generate_session_keys_blob ks = []) := by
        simp [encodeKey_ne_nil k]
      rw [if_neg hne]
      rw [decodeKey_encodeKey k hk]
      simp [ih hks]

lemma decode_session_keys_sound (B : Bytes) :
    ∀ ks, BytesOk B → decode_session_keys B = some ks →
      generate_session_keys_blob ks = B ∧ ValidBundle ks := by
  induction B using decode_session_keys.induct with
  | case1 =>
      intro ks _ h
      rw [decode_session_keys] at h
      simp at h
      subst h
      exact ⟨rfl, by intro k hk; simp at hk⟩
  | case2 B hne hK =>
      intro ks _ h
      rw [decode_session_keys, if_neg hne, hK] at h
      simp at h
  | case3 B hne k rest hK ih =>
      intro ks hB h
      rw [decode_session_keys, if_neg hne, hK] at h
      simp at h
      match hrec : decode_session_keys rest with
      | none => rw [hrec] at h; simp at h
      | some ks1 =>
          rw [hrec] at h
          simp at h
          subst h
          obtain ⟨henc, hvk⟩ := decodeKey_sound hB hK
          have hrest : BytesOk rest := by
            intro b hb
            exact hB b (by rw [← henc]; simp [hb])
          obtain ⟨ih1, ih2⟩ := ih ks1 hrest hrec
          constructor
          · rw [← henc, ← ih1]
            simp [generate_session_keys_blob]
          · intro x hx
            simp at hx
            rcases hx with hx | hx
            · subst hx; exact hvk
            · exact ih2 x hx

/-- C1: decoding the blob produced by `generate_session_keys` for a valid
bundle `K` returns `some K`: the original `(raw key bytes, KeyTypeId)` pairs,
element-for-element and in the original order. -/
theorem session_keys_roundtrip (K : List KeyRecord) (hK : ValidBundle K) :
    decode_session_keys (generate_session_keys_blob K) = some K :=
  decode_encode_bundle K hK

/-- Witness for C1 at a concrete two-key bundle. -/
theorem session_keys_roundtrip_witness :
    ValidBundle [([1, 2, 3], 5), ([], 7)] ∧
      decode_session_keys (generate_session_keys_blob [([1, 2, 3], 5), ([], 7)]) =
        some [([1, 2, 3], 5), ([], 7)] :=
  ⟨by simp only [ValidBundle, ValidKey, BytesOk]; decide,
   session_keys_roundtrip [([1, 2, 3], 5), ([], 7)]
     (by simp only [ValidBundle, ValidKey, BytesOk]; decide)⟩

/-- C2: `decode_session_keys` is total — on every byte sequence it returns
either `none` or `some` of a valid parse (a valid bundle whose deterministic
encoding is exactly the input); it is a pure function with no partial state. -/
theorem decode_session_keys_total (B : Bytes) (hB : BytesOk B) :
    decode_session_keys B = none ∨
      ∃ ks, decode_session_keys B = some ks ∧ ValidBundle ks ∧
        generate_session_keys_blob ks = B := by
  match h : decode_session_keys B with
  | none => exact Or.inl rfl
  | some ks =>
      obtain ⟨h1, h2⟩ := decode_session_keys_sound B ks hB h
      exact Or.inr ⟨ks, rfl, h2, h1⟩

/-- Witness for C2 at a concrete truncated input. -/
theorem decode_session_keys_total_witness :
    BytesOk [1, 2, 3] ∧
      (decode_session_keys [1, 2, 3] = none ∨
        ∃ ks, decode_session_keys [1, 2, 3] = some ks ∧ ValidBundle ks ∧
          generate_session_keys_blob ks = [1, 2, 3]) :=
  ⟨by simp only [BytesOk]; decide,
   decode_session_keys_total [1, 2, 3] (by simp only [BytesOk]; decide)⟩

/-- Type alias for `sp_staking::SessionIndex` (`u32`). -/
abbrev SessionIndex := Nat

/-- Type alias for `ValidatorCount`: "Number of validators in a given session" (`u32`). -/
abbrev ValidatorCount := Nat

/-- Structure `MembershipProof`: "Proof of membership of a specific key in a given
session" — session index, merkle trie nodes, validator count, in source
declaration order. -/
structure MembershipProof where
  session : SessionIndex
  trie_nodes : List Bytes
  validator_count : ValidatorCount
deriving Repr, DecidableEq

/-- The derived `Default` for `MembershipProof`: every field at its default. -/
def MembershipProof.defaultValue : MembershipProof :=
  { session := 0, trie_nodes := [], validator_count := 0 }

/-- Impl `<MembershipProof as GetSessionNumber>::session`, a `&self` method:
modelled as returning the result together with the value after the call. -/
def MembershipProof.sessionCall (p : MembershipProof) : SessionIndex × MembershipProof :=
  (p.session, p)

/-- Impl `<MembershipProof as GetValidatorCount>::validator_count`, a `&self`
method: result paired with the value after the call. -/
def MembershipProof.validatorCountCall (p : MembershipProof) :
    ValidatorCount × MembershipProof :=
  (p.validator_count, p)

/-- Type `sp_core::Void`: an enum with no variants. -/
inductive Void : Type

/-- Impl `<sp_core::Void as GetSessionNumber>::session`: body is
`Default::default()`. -/
def Void.session (_ : Void) : SessionIndex := default

/-- Impl `<sp_core::Void as GetValidatorCount>::validator_count`: body is
`Default::default()`. -/
def Void.validator_count (_ : Void) : ValidatorCount := default

/-- C4: both accessors of the placeholder (no-op) proof type return the
zero/default value, regardless of the (impossible-to-construct) receiver. -/
theorem void_accessors_default (v : Void) :
    Void.session v = 0 ∧ Void.validator_count v = 0 :=
  ⟨rfl, rfl⟩

/-- C5: the `MembershipProof` accessors return exactly the `session` and
`validator_count` fields, and as read-only borrows they leave the proof
unchanged. -/
theorem membershipProof_accessors (p : MembershipProof) :
    p.sessionCall.1 = p.session ∧ p.validatorCountCall.1 = p.validator_count ∧
      p.sessionCall.2 = p ∧ p.validatorCountCall.2 = p :=
  ⟨rfl, rfl, rfl, rfl⟩

/-- SCALE encoding of one `Vec<u8>`: compact length then the raw bytes. -/
def encodeByteVec (b : Bytes) : Bytes := encodeCompact b.length ++ b

/-- SCALE decoding of one `Vec<u8>` from the head of a stream. -/
def decodeByteVec (B : Bytes) : Option (Bytes × Bytes) :=
  match decodeCompact B with
  | none => none
  | some (n, r) => if n ≤ r.length then some (r.take n, r.drop n) else none

/-- SCALE decoding of a known number of consecutive `Vec<u8>` values. -/
def decodeByteVecs : Nat → Bytes → Option (List Bytes × Bytes)
  | 0, B => some ([], B)
  | n + 1, B =>
      match decodeByteVec B with
      | none => none
      | some (b, r) =>
          match decodeByteVecs n r with
          | none => none
          | some (bs, r2) => some (b :: bs, r2)

/-- The derived SCALE `Encode` for `MembershipProof`: the field
encodings concatenated in declaration order (`Vec<Vec<u8>>` is a compact
length count followed by the encoding of each inner vector). -/
def MembershipProof.encode (p : MembershipProof) : Bytes :=
  encodeU32 p.session ++ encodeCompact p.trie_nodes.length ++
    (p.trie_nodes.map encodeByteVec).flatten ++ encodeU32 p.validator_count

/-- The derived SCALE `Decode` for `MembershipProof`: reads the fields in
declaration order, returning the value and the unconsumed remainder. -/
def MembershipProof.decode (B : Bytes) : Option (MembershipProof × Bytes) :=
  match decodeU32 B with
  | none => none
  | some (s, r1) =>
      match decodeCompact r1 with
      | none => none
      | some (n, r2) =>
          match decodeByteVecs n r2 with
          | none => none
          | some (tns, r3) =>
              match decodeU32 r3 with
              | none => none
              | some (vc, r4) => some (⟨s, tns, vc⟩, r4)

/-- Method `Encode::encode`, a `&self` method: result paired with the value after
the call. -/
def MembershipProof.encodeCall (p : MembershipProof) : Bytes × MembershipProof :=
  (p.encode, p)

/-- C6: a `MembershipProof` is immutable — every operation this core defines
on an existing proof (the two accessors and encoding) borrows it and leaves
every field unchanged; fields are only ever set at construction. -/
theorem membershipProof_immutable (p : MembershipProof) :
    p.sessionCall.2.session = p.session ∧
      p.sessionCall.2.trie_nodes = p.trie_nodes ∧
      p.sessionCall.2.validator_count = p.validator_count ∧
      p.validatorCountCall.2 = p ∧ p.encodeCall.2 = p :=
  ⟨rfl, rfl, rfl, rfl, rfl⟩

/-- A `MembershipProof` whose numeric fields fit their `u32` width and whose
trie-node vector fits the compact-length range. -/
def ValidProof (p : MembershipProof) : Prop :=
  p.session < 4294967296 ∧ p.validator_count < 4294967296 ∧
    p.trie_nodes.length < 1073741824 ∧
    ∀ b ∈ p.trie_nodes, b.length < 1073741824

lemma decodeByteVec_encodeByteVec (b : Bytes) (h : b.length < 1073741824)
    (rest : Bytes) : decodeByteVec (encodeByteVec b ++ rest) = some (b, rest) := by
  unfold encodeByteVec decodeByteVec
  rw [List.append_assoc]
  simp only [decodeCompact_encodeCompact b.length h]
  have hle : b.length ≤ (b ++ rest).length := by simp
  rw [if_pos hle]
  simp

lemma decodeByteVecs_encode (tns : List Bytes)
    (h : ∀ b ∈ tns, b.length < 1073741824) (rest : Bytes) :
    decodeByteVecs tns.length ((tns.map encodeByteVec).flatten ++ rest) =
      some (tns, rest) := by
  induction tns with
  | nil => simp [decodeByteVecs]
  | cons b bs ih =>
      have hb : b.length < 1073741824 := h b (by simp)
      have hbs : ∀ x ∈ bs, x.length < 1073741824 := by
        intro x hx
        exact h x (by simp [hx])
      simp only [List.length_cons, List.map_cons, List.flatten_cons, decodeByteVecs,
        List.append_assoc]
      rw [decodeByteVec_encodeByteVec b hb]
      simp [ih hbs]

/-- C10: `MembershipProof` round-trips through its derived SCALE codec —
decoding the encoding of a valid proof consumes the whole blob and returns
the proof unchanged — and the derived default value has `session = 0`, empty
`trie_nodes` and `validator_count = 0`. -/
theorem membershipProof_scale_roundtrip (p : MembershipProof) (h : ValidProof p) :
    MembershipProof.decode p.encode = some (p, []) ∧
      MembershipProof.defaultValue.session = 0 ∧
      MembershipProof.defaultValue.trie_nodes = [] ∧
      MembershipProof.defaultValue.validator_count = 0 := by
  obtain ⟨hs, hvc, hlen, hnodes⟩ := h
  refine ⟨?_, rfl, rfl, rfl⟩
  unfold MembershipProof.encode MembershipProof.decode
  simp only [List.append_assoc]
  simp only [decodeU32_encodeU32 p.session hs]
  simp only [decodeCompact_encodeCompact p.trie_nodes.length hlen]
  simp only [decodeByteVecs_encode p.trie_nodes hnodes]
  rw [show encodeU32 p.validator_count = encodeU32 p.validator_count ++ [] by simp]
  simp only [decodeU32_encodeU32 p.validator_count hvc]

/-- Witness for C10 at a concrete proof value. -/
theorem membershipProof_scale_roundtrip_witness :
    ValidProof ⟨5, [[1, 2], []], 10⟩ ∧
      (MembershipProof.decode (MembershipProof.encode ⟨5, [[1, 2], []], 10⟩) =
          some (⟨5, [[1, 2], []], 10⟩, []) ∧
        MembershipProof.defaultValue.session = 0 ∧
        MembershipProof.defaultValue.trie_nodes = [] ∧
        MembershipProof.defaultValue.validator_count = 0) :=
  ⟨by simp only [ValidProof]; decide,
   membershipProof_scale_roundtrip ⟨5, [[1, 2], []], 10⟩
     (by simp only [ValidProof]; decide)⟩

/-- UTF-8 encoding of one character; the Rust method `str::as_bytes` exposes the
UTF-8 representation of the string. -/
def charUtf8 (c : Char) : Bytes :=
  if c.toNat < 128 then [c.toNat]
  else if c.toNat < 2048 then [192 + c.toNat / 64, 128 + c.toNat % 64]
  else if c.toNat < 65536 then
    [224 + c.toNat / 4096, 128 + c.toNat / 64 % 64, 128 + c.toNat % 64]
  else
    [240 + c.toNat / 262144, 128 + c.toNat / 4096 % 64,
     128 + c.toNat / 64 % 64, 128 + c.toNat % 64]

/-- Model of `seed.as_bytes().to_vec()`: the UTF-8 bytes of the seed string. -/
def utf8Bytes (s : String) : Bytes := (s.data.map charUtf8).flatten

variable {E : Type}

/-- Translation of `generate_initial_session_keys`: for each seed, in order, call the
runtime api `generate_session_keys` with `Some` of the UTF-8 bytes of the seed,
stopping at the first failing call (`?` propagates its error) and returning
`Ok(())` once the loop completes. The first component records the argument
of every call actually made, in order. -/
def generate_initial_session_keys (api : Option Bytes → Except E Bytes) :
    List String → List (Option Bytes) × Except E Unit
  | [] => ([], Except.ok Unit.unit)
  | s :: rest =>
      match api (some (utf8Bytes s)) with
      | Except.error e => ([some (utf8Bytes s)], Except.error e)
      | Except.ok _ =>
          let r := generate_initial_session_keys api rest
          (some (utf8Bytes s) :: r.1, r.2)

/-- The position and error of the first seed whose runtime-api call fails,
written from the spec: the caller observes the first failure verbatim and
later seeds are not attempted. -/
def firstFailure (api : Option Bytes → Except E Bytes) :
    List String → Option (Nat × E)
  | [] => none
  | s :: rest =>
      match api (some (utf8Bytes s)) with
      | Except.error e => some (0, e)
      | Except.ok _ => (firstFailure api rest).map (fun ie => (ie.1 + 1, ie.2))

/-- C3: `generate_initial_session_keys` makes exactly one api call per seed,
in list order, always passing `Some` of the UTF-8 bytes of the seed; with no
failing seed (in particular for the empty list, with no calls) it returns
`Ok(())`, and on the first failure it returns that error verbatim, having
called the api only for the seeds up to and including the failing one. -/
theorem generate_initial_session_keys_calls (api : Option Bytes → Except E Bytes)
    (seeds : List String) :
    generate_initial_session_keys api seeds =
      match firstFailure api seeds with
      | none => (seeds.map fun s => some (utf8Bytes s), Except.ok Unit.unit)
      | some (i, e) =>
          ((seeds.take (i + 1)).map fun s => some (utf8Bytes s), Except.error e) := by
  induction seeds with
  | nil => rfl
  | cons s rest ih =>
      cases hapi : api (some (utf8Bytes s)) with
      | error e =>
          simp [generate_initial_session_keys, firstFailure, hapi]
      | ok b =>
          cases hf : firstFailure api rest with
          | none =>
              rw [hf] at ih
              simp at ih
              simp [generate_initial_session_keys, firstFailure, hapi, hf, ih]
          | some ie =>
              rw [hf] at ih
              simp at ih
              simp [generate_initial_session_keys, firstFailure, hapi, hf, ih]

/-- Session state outside the keystore: the current session index, the
active validator list and the handler state. -/
structure SessionState where
  index : SessionIndex
  validators : List Nat
  handler : List Nat
deriving Repr, DecidableEq

/-- Everything a runtime-api call can touch: the external keystore plus the
session state. -/
structure World where
  keystore : List Bytes
  sessionState : SessionState
deriving Repr, DecidableEq

/-- Variant of `generate_initial_session_keys` with the world threaded through each
runtime-api call, so its side effects can be observed. -/
def generate_initial_session_keys_st
    (api : Option Bytes → World → Except E (Bytes × World)) :
    List String → World → Except E World
  | [], w => Except.ok w
  | s :: rest, w =>
      match api (some (utf8Bytes s)) w with
      | Except.error e => Except.error e
      | Except.ok (_, w1) => generate_initial_session_keys_st api rest w1

/-- C7: when each runtime-api call mutates only the keystore (its documented
effect: "The keys should be stored within the keystore"), a successful
`generate_initial_session_keys` leaves the session index, the validator set
and the handler state unchanged — generated keys do not enter `validators()`. -/
theorem generate_initial_session_keys_frame
    (api : Option Bytes → World → Except E (Bytes × World))
    (hapi : ∀ a w b w1, api a w = Except.ok (b, w1) →
      w1.sessionState = w.sessionState)
    (seeds : List String) (w w1 : World)
    (h : generate_initial_session_keys_st api seeds w = Except.ok w1) :
    w1.sessionState = w.sessionState := by
  induction seeds generalizing w with
  | nil =>
      simp [generate_initial_session_keys_st] at h
      rw [h]
  | cons s rest ih =>
      unfold generate_initial_session_keys_st at h
      cases hapi1 : api (some (utf8Bytes s)) w with
      | error e => rw [hapi1] at h; simp at h
      | ok bw =>
          rw [hapi1] at h
          have h1 := hapi _ _ _ _ hapi1
          have h2 := ih bw.2 h
          rw [h2, h1]

/-- An api that only pushes onto the keystore, used to witness C7. -/
def apiKeystoreOnly (a : Option Bytes) (w : World) : Except Nat (Bytes × World) :=
  Except.ok ([], ⟨a.getD [] :: w.keystore, w.sessionState⟩)

/-- Witness for C7 with a concrete keystore-only api, one seed and a
concrete starting world. -/
theorem generate_initial_session_keys_frame_witness :
    (∀ a w b w1, apiKeystoreOnly a w = Except.ok (b, w1) →
        w1.sessionState = w.sessionState) ∧
      generate_initial_session_keys_st apiKeystoreOnly ["a"] ⟨[], ⟨3, [7], []⟩⟩ =
        Except.ok ⟨[[97]], ⟨3, [7], []⟩⟩ ∧
      (⟨[[97]], ⟨3, [7], []⟩⟩ : World).sessionState =
        (⟨[], ⟨3, [7], []⟩⟩ : World).sessionState :=
  ⟨fun a w b w1 h => by
      simp [apiKeystoreOnly] at h
      rw [← h.2],
   by rfl,
   generate_initial_session_keys_frame apiKeystoreOnly
     (fun a w b w1 h => by
       simp [apiKeystoreOnly] at h
       rw [← h.2])
     ["a"] ⟨[], ⟨3, [7], []⟩⟩ ⟨[[97]], ⟨3, [7], []⟩⟩ (by rfl)⟩

variable {V K S : Type}

/-- One `on_new_session` call as received by a `OneSessionHandler`:
`changed`, the incoming `validators` and the `queued_validators`
(materialized as lists; the source passes single-pass iterators over
`(ValidatorId, Key)` pairs). -/
structure NewSessionCall (V K : Type) where
  changed : Bool
  validators : List (V × K)
  queued_validators : List (V × K)

/-- Modelled from the spec: one boundary step of the session-rotation
coordinator, which is external to this crate. The coordinator keeps the
active set and the queued (look-ahead) set; at a boundary the queued set
becomes active, a freshly planned set is queued, and `on_new_session`
receives the incoming set as `validators` and the new queue as
`queued_validators`. -/
def rotateStep (st : List (V × K) × List (V × K))
    (next : List (V × K) × Bool) :
    NewSessionCall V K × (List (V × K) × List (V × K)) :=
  (⟨next.2, st.2, next.1⟩, (st.2, next.1))

/-- The sequence of `on_new_session` calls the coordinator makes from state
`st` under a plan of upcoming validator sets (with their `changed` flags). -/
def rotationCalls (st : List (V × K) × List (V × K)) :
    List (List (V × K) × Bool) → List (NewSessionCall V K)
  | [] => []
  | next :: plan =>
      let r := rotateStep st next
      r.1 :: rotationCalls r.2 plan

/-- C8: across any run of the coordinator, the `queued_validators` passed to
`on_new_session` at session `N` equal the `validators` passed at session
`N + 1`. -/
theorem rotation_lookahead (st : List (V × K) × List (V × K))
    (plan : List (List (V × K) × Bool)) (N : Nat)
    (h : N + 1 < (rotationCalls st plan).length) :
    ((rotationCalls st plan).get ⟨N, by omega⟩).queued_validators =
      ((rotationCalls st plan).get ⟨N + 1, h⟩).validators := by
  induction plan generalizing st N with
  | nil => simp [rotationCalls] at h
  | cons next plan ih =>
      cases N with
      | zero =>
          cases plan with
          | nil => simp [rotationCalls] at h
          | cons n2 plan1 => simp [rotationCalls, rotateStep]
      | succ N1 =>
          have h1 : N1 + 1 < (rotationCalls (rotateStep st next).2 plan).length := by
            simp [rotationCalls] at h
            omega
          have hh := ih (rotateStep st next).2 N1 h1
          simpa [rotationCalls] using hh

/-- Witness for C8 on a concrete three-boundary run. -/
theorem rotation_lookahead_witness :
    0 + 1 < (rotationCalls (([], [(1, 1)]) : List (Nat × Nat) × List (Nat × Nat))
        [([(2, 2)], true), ([(3, 3)], false)]).length ∧
      ((rotationCalls (([], [(1, 1)]) : List (Nat × Nat) × List (Nat × Nat))
          [([(2, 2)], true), ([(3, 3)], false)]).get
            ⟨0, by simp [rotationCalls]⟩).queued_validators =
        ((rotationCalls (([], [(1, 1)]) : List (Nat × Nat) × List (Nat × Nat))
          [([(2, 2)], true), ([(3, 3)], false)]).get
            ⟨0 + 1, by simp [rotationCalls]⟩).validators :=
  ⟨by simp [rotationCalls],
   rotation_lookahead ([], [(1, 1)]) [([(2, 2)], true), ([(3, 3)], false)] 0
     (by simp [rotationCalls])⟩

/-- The default body of `OneSessionHandler::on_before_session_ending` is the
empty block, modelled as a state transformer over the handler state `S`: it
reads and writes nothing and returns unit. -/
def on_before_session_ending_default (s : S) : Unit × S := (Unit.unit, s)

/-- C9: the default `on_before_session_ending` is a no-op — a single call
returns unit and leaves any handler state unchanged, and so does invoking it
any number of times (in particular zero or one time per session, at whatever
point the external coordinator schedules it). -/
theorem on_before_session_ending_noop (s : S) (n : Nat) :
    on_before_session_ending_default s = (Unit.unit, s) ∧
      Nat.iterate (fun t => (on_before_session_ending_default t).2) n s = s :=
  ⟨rfl, Function.iterate_fixed rfl n⟩

end SpSession
